import Mathlib

/-!
Verification of `lib/util/npm-util.js`.

The module has three public operations — `installSyncSaveDev`, `checkDeps`,
`checkDevDeps` — built on two helpers, `findPackageJson` and `check`.

Modelling choices, each tied to a line of the source:

* An absolute path is a list of name components below the filesystem root;
  the root directory is `[]`.  On such a directory `path.join(dir, "..")`
  and `path.resolve(dir, "..")` both drop the last component, and on the
  root they return the root: `parentDir`.
* The filesystem is a pair of functions: `ex` models `fs.existsSync`, and
  `parseJson` models `JSON.parse(fs.readFileSync(p, "utf8"))`, with `none`
  standing for a JSON parse failure.  Only the two dependency fields of the
  parsed object are ever read, so a parsed manifest is a `Manifest`.
* A JSON object field is `none` when absent; a present field keeps its
  key-value pairs in insertion order, since `Object.keys` reports keys in
  that order.  `Object.keys(undefined)` throws a `TypeError`, which
  `objectKeys` returns as `.error .typeError`.
* `process.cwd()` is an explicit `cwd` argument; calling `findPackageJson`
  with no argument is the `none` case of its optional `startDir`.
* The do-while loop of `findPackageJson` is written with fuel
  `dir.length + 1`, which the lemmas show is always sufficient: every
  iteration either returns or strictly shortens the directory.
* `shell.execSync` is modelled by its observable argument: the list of
  command strings issued (`installSyncSaveDev` issues exactly one).
* The object literal built by `packages.reduce(...)` is a list of
  key/value pairs in insertion order; `status[pkg] = v` is `setKey`,
  which updates an existing key in place or appends a fresh one.
-/

namespace NpmUtil

/-- An absolute directory or file path: name components below the
filesystem root.  The root directory is `[]`. -/
abbrev Path := List String

/-- `path.join(dir, "..")` (equally `path.resolve(dir, "..")`) on an
absolute directory: drop the last component; the root is its own parent. -/
def parentDir (d : Path) : Path := d.dropLast

/-- A JSON object field: `none` when the field is absent, otherwise the
key-value pairs in insertion order. -/
abbrev JsonField := Option (List (String × String))

/-- The two fields of a parsed `package.json` that the module reads. -/
structure Manifest where
  dependencies : JsonField
  devDependencies : JsonField
deriving DecidableEq

/-- The filesystem as the module sees it: `ex p` is `fs.existsSync(p)`,
and `parseJson p` is `JSON.parse(fs.readFileSync(p, "utf8"))` with `none`
for a parse failure. -/
structure FileSystem where
  ex : Path → Bool
  parseJson : Path → Option Manifest

/-- The do-while loop of `findPackageJson`:

    do {
        var pkgfile = path.join(dir, "package.json");
        if (!fs.existsSync(pkgfile)) { dir = path.join(dir, ".."); continue; }
        return pkgfile;
    } while (dir !== path.resolve(dir, ".."));
    return null;

The `continue` jumps to the loop condition, which is evaluated on the new
`dir`; when that test fails the loop returns `null` without another
iteration.  Fuel `dir.length + 1` always suffices. -/
def findPkgLoop (ex : Path → Bool) : Nat → Path → Option Path
  | 0, _ => none
  | fuel+1, dir =>
    let pkgfile := dir ++ ["package.json"]
    if ex pkgfile then some pkgfile
    else
      let d := parentDir dir
      if d = parentDir d then none
      else findPkgLoop ex fuel d

/-- `findPackageJson(startDir)`: `path.resolve(startDir || process.cwd())`
followed by the ascent loop.  `startDir = none` models a call with no
argument, which starts at the current working directory. -/
def findPackageJson (ex : Path → Bool) (cwd : Path) (startDir : Option Path) : Option Path :=
  let dir := startDir.getD cwd
  findPkgLoop ex (dir.length + 1) dir

/-- The errors a `check` call can throw. -/
inductive CheckError
  /-- `new Error("Could not find a package.json file")` -/
  | manifestNotFound
  /-- the `TypeError` thrown by `Object.keys(undefined)` -/
  | typeError
  /-- an uncaught `JSON.parse` failure -/
  | parseError
deriving DecidableEq

deriving instance DecidableEq for Except

/-- `Object.keys(field)`: throws a `TypeError` when the field is absent
(`Object.keys(undefined)`), otherwise the keys in insertion order. -/
def objectKeys : JsonField → Except CheckError (List String)
  | none => .error .typeError
  | some kvs => .ok (kvs.map Prod.fst)

/-- The options object of `check`; a field a caller leaves out of the
literal is `undefined`, hence falsy, hence `false` here. -/
structure Opt where
  dependencies : Bool
  devDependencies : Bool
deriving DecidableEq

/-- `status[pkg] = v` on a JS object: update the value in place when the
key is already present (insertion order is kept), else append the key. -/
def setKey (status : List (String × Bool)) (k : String) (v : Bool) : List (String × Bool) :=
  if status.any (fun p => p.1 == k) then
    status.map (fun p => if p.1 == k then (k, v) else p)
  else
    status ++ [(k, v)]

/-- `check(packages, opt)`.  Mirrors the source line by line:
`findPackageJson()` is called with no argument; a missing manifest throws;
the file is read and JSON-parsed; `Object.keys` is applied to each
selected field (throwing on an absent field); the two key lists are
concatenated onto `deps = []` (devDependencies first); finally
`packages.reduce` builds the status object with
`status[pkg] = deps.indexOf(pkg) !== -1`. -/
def check (fsys : FileSystem) (cwd : Path) (packages : List String) (opt : Opt) :
    Except CheckError (List (String × Bool)) :=
  match findPackageJson fsys.ex cwd none with
  | none => .error .manifestNotFound
  | some pkgJson =>
    match fsys.parseJson pkgJson with
    | none => .error .parseError
    | some fileJson =>
      match (if opt.devDependencies then objectKeys fileJson.devDependencies else .ok []) with
      | .error e => .error e
      | .ok devKeys =>
        match (if opt.dependencies then objectKeys fileJson.dependencies else .ok []) with
        | .error e => .error e
        | .ok depKeys =>
          let deps : List String := [] ++ devKeys ++ depKeys
          .ok (packages.foldl (fun status pkg => setKey status pkg (deps.contains pkg)) [])

/-- `checkDeps(packages) = check(packages, {dependencies: true})`. -/
def checkDeps (fsys : FileSystem) (cwd : Path) (packages : List String) :
    Except CheckError (List (String × Bool)) :=
  check fsys cwd packages ⟨true, false⟩

/-- `checkDevDeps(packages) = check(packages, {devDependencies: true})`. -/
def checkDevDeps (fsys : FileSystem) (cwd : Path) (packages : List String) :
    Except CheckError (List (String × Bool)) :=
  check fsys cwd packages ⟨false, true⟩

/-- The argument of `installSyncSaveDev`: a single string or an array. -/
inductive Packages
  | str (s : String)
  | arr (l : List String)

/-- `Array.prototype.join(" ")`. -/
def joinSpace : List String → String
  | [] => ""
  | [p] => p
  | p :: ps => p ++ " " ++ joinSpace ps

/-- `installSyncSaveDev(packages)`, observed as the list of
`shell.execSync` command strings it issues: an array argument is joined
with single spaces, then exactly one command is run. -/
def installSyncSaveDev (packages : Packages) : List String :=
  let arg := match packages with
    | .arr l => joinSpace l
    | .str s => s
  ["npm i --save-dev " ++ arg]

/-- `q` is the directory `r` itself or one of its ancestors. -/
def IsPref (q r : Path) : Prop := ∃ t, q ++ t = r

/-- Filesystem effects.  The module itself performs only the two read
effects (`fs.existsSync`, `fs.readFileSync`); a write effect exists in
the ambient `fs` API and does change the filesystem, so leaving the
filesystem unchanged is a property of the traces below, not of the
effect language. -/
inductive FsEffect
  | existsCheck (p : Path)
  | readFile (p : Path)
  | writeFile (p : Path) (contents : Option Manifest)
deriving DecidableEq

/-- Read effects observe the filesystem; a write replaces a file. -/
def FsEffect.isRead : FsEffect → Bool
  | .existsCheck _ => true
  | .readFile _ => true
  | .writeFile _ _ => false

/-- How one effect acts on the filesystem. -/
def applyEffect (fsys : FileSystem) : FsEffect → FileSystem
  | .existsCheck _ => fsys
  | .readFile _ => fsys
  | .writeFile p c =>
    ⟨fun q => if q == p then true else fsys.ex q,
     fun q => if q == p then c else fsys.parseJson q⟩

/-- The filesystem after a sequence of effects. -/
def runTrace (fsys : FileSystem) (tr : List FsEffect) : FileSystem :=
  tr.foldl applyEffect fsys

/-- The loop of `findPackageJson`, instrumented with the effects it
performs: one `existsSync` test per iteration. -/
def findPkgLoopTr (ex : Path → Bool) : Nat → Path → Option Path × List FsEffect
  | 0, _ => (none, [])
  | fuel+1, dir =>
    let pkgfile := dir ++ ["package.json"]
    if ex pkgfile then (some pkgfile, [.existsCheck pkgfile])
    else
      let d := parentDir dir
      if d = parentDir d then (none, [.existsCheck pkgfile])
      else
        let r := findPkgLoopTr ex fuel d
        (r.1, .existsCheck pkgfile :: r.2)

/-- `findPackageJson`, instrumented with its filesystem effects. -/
def findPackageJsonTr (ex : Path → Bool) (cwd : Path) (startDir : Option Path) :
    Option Path × List FsEffect :=
  let dir := startDir.getD cwd
  findPkgLoopTr ex (dir.length + 1) dir

/-- `check`, instrumented with its filesystem effects: the effects of
the manifest search, then one `readFileSync` when a manifest was found. -/
def checkTr (fsys : FileSystem) (cwd : Path) (packages : List String) (opt : Opt) :
    Except CheckError (List (String × Bool)) × List FsEffect :=
  let f := findPackageJsonTr fsys.ex cwd none
  match f.1 with
  | none => (.error .manifestNotFound, f.2)
  | some pkgJson =>
    let tr := f.2 ++ [.readFile pkgJson]
    match fsys.parseJson pkgJson with
    | none => (.error .parseError, tr)
    | some fileJson =>
      match (if opt.devDependencies then objectKeys fileJson.devDependencies else .ok []) with
      | .error e => (.error e, tr)
      | .ok devKeys =>
        match (if opt.dependencies then objectKeys fileJson.dependencies else .ok []) with
        | .error e => (.error e, tr)
        | .ok depKeys =>
          let deps : List String := [] ++ devKeys ++ depKeys
          (.ok (packages.foldl (fun status pkg => setKey status pkg (deps.contains pkg)) []), tr)

/-- The keys of the selected manifest fields, in the order `check`
collects them (devDependencies first): the searchable name set. -/
def selectedKeys (opt : Opt) (m : Manifest) : List String :=
  (if opt.devDependencies then (m.devDependencies.getD []).map Prod.fst else []) ++
  (if opt.dependencies then (m.dependencies.getD []).map Prod.fst else [])

/-- A filesystem whose only `package.json` is in the filesystem root. -/
def exRootOnly : Path → Bool := fun p => p == ["package.json"]

/-- A manifest with `devDependencies: {"x": "1.0.0"}` and no
`dependencies` field. -/
def mDevX : Manifest := ⟨none, some [("x", "1.0.0")]⟩

/-- A filesystem whose root holds `mDevX` as its `package.json`. -/
def fsDevX : FileSystem :=
  ⟨fun p => p == ["package.json"],
   fun p => if p == ["package.json"] then some mDevX else none⟩

/-- A manifest with `dependencies: {"a": "1.0.0", "b": "2.0.0"}`. -/
def mAB : Manifest := ⟨some [("a", "1.0.0"), ("b", "2.0.0")], none⟩

/-- A filesystem with `mAB` as the `package.json` of directory `/proj`. -/
def fsAB : FileSystem :=
  ⟨fun p => p == ["proj", "package.json"],
   fun p => if p == ["proj", "package.json"] then some mAB else none⟩

/-- Like `fsAB`, but a second manifest exists at `/other/package.json`;
it differs from `fsAB` only outside the ancestor chain of `/proj`. -/
def fsAB' : FileSystem :=
  ⟨fun p => p == ["proj", "package.json"],
   fun p => if p == ["proj", "package.json"] then some mAB
     else if p == ["other", "package.json"] then some mDevX else none⟩

/-- A filesystem with no `package.json` anywhere. -/
def fsEmpty : FileSystem := ⟨fun _ => false, fun _ => none⟩

lemma pref_refl (q : Path) : IsPref q q := ⟨[], List.append_nil q⟩

lemma pref_length_le {q r : Path} (h : IsPref q r) : q.length ≤ r.length := by
  obtain ⟨t, ht⟩ := h
  rw [← ht, List.length_append]
  omega

lemma pref_nil_right {q : Path} (h : IsPref q []) : q = [] := by
  obtain ⟨t, ht⟩ := h
  exact List.append_eq_nil.mp ht |>.1

lemma pref_parent (d : Path) : IsPref (parentDir d) d := by
  rcases d.eq_nil_or_concat with h | ⟨L, b, h⟩
  · subst h; exact ⟨[], rfl⟩
  · subst h
    exact ⟨[b], by simp [parentDir, List.concat_eq_append, List.dropLast_concat]⟩

lemma pref_trans {a b c : Path} (h1 : IsPref a b) (h2 : IsPref b c) : IsPref a c := by
  obtain ⟨t1, ht1⟩ := h1
  obtain ⟨t2, ht2⟩ := h2
  exact ⟨t1 ++ t2, by rw [← List.append_assoc, ht1, ht2]⟩

lemma pref_of_parent {q d : Path} (h : IsPref q (parentDir d)) : IsPref q d :=
  pref_trans h (pref_parent d)

lemma pref_proper {q r : Path} (h : IsPref q r) (hne : q ≠ r) : IsPref q (parentDir r) := by
  obtain ⟨t, ht⟩ := h
  rcases t.eq_nil_or_concat with h0 | ⟨L, b, h0⟩
  · subst h0
    simp only [List.append_nil] at ht
    exact absurd ht hne
  · subst h0
    refine ⟨L, ?_⟩
    rw [← ht, List.concat_eq_append, parentDir, ← List.append_assoc, List.dropLast_concat]

lemma parentDir_eq_self_iff (d : Path) : parentDir d = d ↔ d = [] := by
  constructor
  · intro h
    by_contra hne
    have h1 : (parentDir d).length = d.length - 1 := List.length_dropLast d
    have h2 : 0 < d.length := List.length_pos.mpr hne
    rw [h] at h1
    omega
  · rintro rfl; rfl

/-- One unfolding step of the loop. -/
lemma findPkgLoop_step (ex : Path → Bool) (n : Nat) (dir : Path) :
    findPkgLoop ex (n + 1) dir =
      if ex (dir ++ ["package.json"]) then some (dir ++ ["package.json"])
      else if parentDir dir = parentDir (parentDir dir) then none
      else findPkgLoop ex n (parentDir dir) := rfl

/-- When the loop returns a path, it is `p ++ ["package.json"]` for the
deepest searched directory `p` that has a `package.json`; the searched
directories are the start directory and its non-root ancestors. -/
lemma findPkgLoop_some (ex : Path → Bool) :
    ∀ (fuel : Nat) (dir : Path), dir.length < fuel →
    ∀ r, findPkgLoop ex fuel dir = some r →
    ∃ p, r = p ++ ["package.json"] ∧ IsPref p dir ∧ (p ≠ [] ∨ p = dir) ∧
      ex (p ++ ["package.json"]) = true ∧
      ∀ q, IsPref q dir → (q ≠ [] ∨ q = dir) → ex (q ++ ["package.json"]) = true →
        q.length ≤ p.length := by
  intro fuel
  induction fuel with
  | zero => intro dir h; exact absurd h (Nat.not_lt_zero _)
  | succ n ih =>
    intro dir hlen r hr
    rw [findPkgLoop_step] at hr
    by_cases hxv : ex (dir ++ ["package.json"]) = true
    · rw [if_pos hxv] at hr
      refine ⟨dir, (Option.some_inj.mp hr).symm, pref_refl dir, Or.inr rfl, hxv, ?_⟩
      intro q hq _ _
      exact pref_length_le hq
    · have hxf : ex (dir ++ ["package.json"]) = false := eq_false_of_ne_true hxv
      rw [if_neg hxv] at hr
      by_cases hd : parentDir dir = parentDir (parentDir dir)
      · rw [if_pos hd] at hr
        exact absurd hr (by simp)
      · rw [if_neg hd] at hr
        have hdne : parentDir dir ≠ [] := by
          intro h0
          exact hd (by rw [h0]; rfl)
        have hdirne : dir ≠ [] := by
          intro h0
          exact hdne (by rw [h0]; rfl)
        have hlen2 : (parentDir dir).length < n := by
          have h1 : (parentDir dir).length = dir.length - 1 := List.length_dropLast dir
          have h2 : 0 < dir.length := List.length_pos.mpr hdirne
          omega
        obtain ⟨p, hp1, hp2, hp3, hp4, hp5⟩ := ih (parentDir dir) hlen2 r hr
        refine ⟨p, hp1, pref_of_parent hp2, ?_, hp4, ?_⟩
        · rcases hp3 with h | h
          · exact Or.inl h
          · exact Or.inl (h ▸ hdne)
        · intro q hq hq2 hex
          by_cases hqd : q = dir
          · rw [hqd] at hex
            exact Bool.noConfusion (hxf.symm.trans hex)
          · have hqne : q ≠ [] := by
              rcases hq2 with h | h
              · exact h
              · exact absurd h hqd
            exact hp5 q (pref_proper hq hqd) (Or.inl hqne) hex

/-- When the loop returns `null`, no searched directory (the start and
its non-root ancestors) has a `package.json`. -/
lemma findPkgLoop_none (ex : Path → Bool) :
    ∀ (fuel : Nat) (dir : Path), dir.length < fuel →
    findPkgLoop ex fuel dir = none →
    ∀ q, IsPref q dir → (q ≠ [] ∨ q = dir) → ex (q ++ ["package.json"]) = false := by
  intro fuel
  induction fuel with
  | zero => intro dir h; exact absurd h (Nat.not_lt_zero _)
  | succ n ih =>
    intro dir hlen hr q hq hq2
    rw [findPkgLoop_step] at hr
    by_cases hxv : ex (dir ++ ["package.json"]) = true
    · rw [if_pos hxv] at hr
      exact absurd hr (by simp)
    · have hxf : ex (dir ++ ["package.json"]) = false := eq_false_of_ne_true hxv
      rw [if_neg hxv] at hr
      by_cases hqd : q = dir
      · rw [hqd]; exact hxf
      · have hqne : q ≠ [] := by
          rcases hq2 with h | h
          · exact h
          · exact absurd h hqd
        have hqpref : IsPref q (parentDir dir) := pref_proper hq hqd
        by_cases hd : parentDir dir = parentDir (parentDir dir)
        · have hdnil : parentDir dir = [] :=
            (parentDir_eq_self_iff (parentDir dir)).mp hd.symm
          rw [hdnil] at hqpref
          exact absurd (pref_nil_right hqpref) hqne
        · rw [if_neg hd] at hr
          have hdirne : dir ≠ [] := by
            intro h0
            exact hd (by rw [h0]; rfl)
          have hlen2 : (parentDir dir).length < n := by
            have h1 : (parentDir dir).length = dir.length - 1 := List.length_dropLast dir
            have h2 : 0 < dir.length := List.length_pos.mpr hdirne
            omega
          exact ih (parentDir dir) hlen2 hr q hqpref (Or.inl hqne)

/-- The loop reads `existsSync` only at `q ++ ["package.json"]` for
directories `q` at or above the start. -/
lemma findPkgLoop_congr (ex ex' : Path → Bool) :
    ∀ (fuel : Nat) (dir : Path),
    (∀ q, IsPref q dir → ex (q ++ ["package.json"]) = ex' (q ++ ["package.json"])) →
    findPkgLoop ex fuel dir = findPkgLoop ex' fuel dir := by
  intro fuel
  induction fuel with
  | zero => intro dir _; rfl
  | succ n ih =>
    intro dir h
    rw [findPkgLoop_step, findPkgLoop_step, h dir (pref_refl dir)]
    by_cases hd : parentDir dir = parentDir (parentDir dir)
    · rw [if_pos hd, if_pos hd]
    · rw [if_neg hd, if_neg hd,
        ih (parentDir dir) (fun q hq => h q (pref_of_parent hq))]

/-- The keys of a status object, in order. -/
abbrev keysOf (st : List (String × Bool)) : List String := st.map Prod.fst

lemma any_key_iff (st : List (String × Bool)) (k : String) :
    st.any (fun p => p.1 == k) = true ↔ k ∈ keysOf st := by
  rw [List.any_eq_true]
  constructor
  · rintro ⟨p, hp, hpk⟩
    exact List.mem_map.mpr ⟨p, hp, beq_iff_eq.mp hpk⟩
  · intro h
    obtain ⟨p, hp, hpk⟩ := List.mem_map.mp h
    exact ⟨p, hp, beq_iff_eq.mpr hpk⟩

lemma keysOf_setKey (st : List (String × Bool)) (k : String) (v : Bool) :
    keysOf (setKey st k v) = if k ∈ keysOf st then keysOf st else keysOf st ++ [k] := by
  unfold setKey
  by_cases h : st.any (fun p => p.1 == k) = true
  · rw [if_pos h, if_pos ((any_key_iff st k).mp h)]
    unfold keysOf
    rw [List.map_map]
    apply List.map_congr_left
    intro p _
    by_cases hpk : (p.1 == k) = true
    · simp only [Function.comp_apply, if_pos hpk]
      exact (beq_iff_eq.mp hpk).symm
    · simp only [Function.comp_apply, if_neg hpk]
  · rw [if_neg h, if_neg (fun hk => h ((any_key_iff st k).mpr hk))]
    unfold keysOf
    rw [List.map_append]
    rfl

lemma mem_setKey {st : List (String × Bool)} {k : String} {v : Bool} {kv : String × Bool}
    (h : kv ∈ setKey st k v) : kv = (k, v) ∨ kv ∈ st := by
  unfold setKey at h
  by_cases ha : st.any (fun p => p.1 == k) = true
  · rw [if_pos ha] at h
    obtain ⟨p, hp, hpk⟩ := List.mem_map.mp h
    by_cases hb : (p.1 == k) = true
    · rw [if_pos hb] at hpk
      exact Or.inl hpk.symm
    · rw [if_neg hb] at hpk
      exact Or.inr (hpk ▸ hp)
  · rw [if_neg ha] at h
    rcases List.mem_append.mp h with h | h
    · exact Or.inr h
    · exact Or.inl (List.mem_singleton.mp h)

lemma setKey_mem_self (st : List (String × Bool)) (k : String) (v : Bool) :
    (k, v) ∈ setKey st k v := by
  unfold setKey
  by_cases ha : st.any (fun p => p.1 == k) = true
  · rw [if_pos ha]
    obtain ⟨p, hp, hpk⟩ := List.any_eq_true.mp ha
    refine List.mem_map.mpr ⟨p, hp, ?_⟩
    rw [if_pos hpk]
  · rw [if_neg ha]
    exact List.mem_append.mpr (Or.inr (List.mem_singleton.mpr rfl))

lemma keysOf_setKey_self (st : List (String × Bool)) (k : String) (v : Bool) :
    k ∈ keysOf (setKey st k v) :=
  List.mem_map.mpr ⟨(k, v), setKey_mem_self st k v, rfl⟩

lemma keysOf_setKey_mono {st : List (String × Bool)} {k' : String} (k : String) (v : Bool)
    (h : k' ∈ keysOf st) : k' ∈ keysOf (setKey st k v) := by
  rw [keysOf_setKey]
  by_cases hk : k ∈ keysOf st
  · rw [if_pos hk]; exact h
  · rw [if_neg hk]; exact List.mem_append_left _ h

lemma keysOf_setKey_nodup {st : List (String × Bool)} (k : String) (v : Bool)
    (h : (keysOf st).Nodup) : (keysOf (setKey st k v)).Nodup := by
  rw [keysOf_setKey]
  by_cases hk : k ∈ keysOf st
  · rw [if_pos hk]; exact h
  · rw [if_neg hk]
    rw [List.nodup_append]
    exact ⟨h, List.nodup_singleton k,
      fun a ha hb => hk ((List.mem_singleton.mp hb) ▸ ha)⟩

/-- The status object built by `packages.reduce`, starting from any
accumulator whose keys are distinct and whose values agree with `f`. -/
lemma foldl_setKey_spec (f : String → Bool) :
    ∀ (ps : List String) (st : List (String × Bool)),
    (keysOf st).Nodup → (∀ kv ∈ st, kv.2 = f kv.1) →
    (keysOf (ps.foldl (fun status pkg => setKey status pkg (f pkg)) st)).Nodup ∧
    (∀ kv ∈ ps.foldl (fun status pkg => setKey status pkg (f pkg)) st,
       (kv ∈ st ∨ kv.1 ∈ ps) ∧ kv.2 = f kv.1) ∧
    (∀ k ∈ keysOf st, k ∈ keysOf (ps.foldl (fun status pkg => setKey status pkg (f pkg)) st)) ∧
    (∀ k ∈ ps, k ∈ keysOf (ps.foldl (fun status pkg => setKey status pkg (f pkg)) st)) := by
  intro ps
  induction ps with
  | nil =>
    intro st h1 h2
    exact ⟨h1, fun kv hkv => ⟨Or.inl hkv, h2 kv hkv⟩, fun k hk => hk,
      fun k hk => absurd hk (List.not_mem_nil k)⟩
  | cons a ps ih =>
    intro st h1 h2
    simp only [List.foldl_cons]
    have h1' : (keysOf (setKey st a (f a))).Nodup := keysOf_setKey_nodup a (f a) h1
    have h2' : ∀ kv ∈ setKey st a (f a), kv.2 = f kv.1 := by
      intro kv hkv
      rcases mem_setKey hkv with h | h
      · rw [h]
      · exact h2 kv h
    obtain ⟨g1, g2, g3, g4⟩ := ih (setKey st a (f a)) h1' h2'
    refine ⟨g1, ?_, ?_, ?_⟩
    · intro kv hkv
      obtain ⟨horig, hval⟩ := g2 kv hkv
      refine ⟨?_, hval⟩
      rcases horig with h | h
      · rcases mem_setKey h with h' | h'
        · exact Or.inr (by rw [h']; exact List.mem_cons_self a ps)
        · exact Or.inl h'
      · exact Or.inr (List.mem_cons_of_mem a h)
    · intro k hk
      exact g3 k (keysOf_setKey_mono a (f a) hk)
    · intro k hk
      rcases List.mem_cons.mp hk with h | h
      · subst h; exact g3 k (keysOf_setKey_self st k (f k))
      · exact g4 k h

/-- The status object built by `packages.reduce` from the empty object:
distinct keys, keys drawn from `packages`, every requested package
present with value `f` of it. -/
lemma reduce_status_spec (f : String → Bool) (ps : List String) :
    (keysOf (ps.foldl (fun status pkg => setKey status pkg (f pkg)) [])).Nodup ∧
    (∀ kv ∈ ps.foldl (fun status pkg => setKey status pkg (f pkg)) [],
       kv.1 ∈ ps ∧ kv.2 = f kv.1) ∧
    (∀ k ∈ ps, (k, f k) ∈ ps.foldl (fun status pkg => setKey status pkg (f pkg)) []) := by
  obtain ⟨g1, g2, g3, g4⟩ :=
    foldl_setKey_spec f ps [] List.nodup_nil (fun kv h => absurd h (List.not_mem_nil kv))
  refine ⟨g1, ?_, ?_⟩
  · intro kv hkv
    obtain ⟨ho, hv⟩ := g2 kv hkv
    rcases ho with h | h
    · exact absurd h (List.not_mem_nil kv)
    · exact ⟨h, hv⟩
  · intro k hk
    have hkk := g4 k hk
    obtain ⟨kv, hkv, hfst⟩ := List.mem_map.mp hkk
    have hv := (g2 kv hkv).2
    obtain ⟨k1, v1⟩ := kv
    simp only at hfst hv
    subst hfst
    rw [← hv]
    exact hkv

lemma joinSpace_one (p : String) : joinSpace [p] = p := rfl

lemma joinSpace_cons₂ (p r : String) (rs : List String) :
    joinSpace (p :: r :: rs) = p ++ " " ++ joinSpace (r :: rs) := rfl

/-- Every element of the list occurs verbatim in its space-join. -/
lemma joinSpace_contains : ∀ (ps : List String), ∀ p ∈ ps,
    ∃ a b, joinSpace ps = a ++ (p ++ b) := by
  intro ps
  induction ps with
  | nil => intro p hp; exact absurd hp (List.not_mem_nil p)
  | cons q ps ih =>
    intro p hp
    rcases List.mem_cons.mp hp with h | h
    · subst h
      cases ps with
      | nil =>
        exact ⟨"", "", by rw [joinSpace_one, String.empty_append, String.append_empty]⟩
      | cons r rs =>
        refine ⟨"", " " ++ joinSpace (r :: rs), ?_⟩
        rw [String.empty_append, joinSpace_cons₂, String.append_assoc]
    · cases ps with
      | nil => exact absurd h (List.not_mem_nil p)
      | cons r rs =>
        obtain ⟨a, b, hab⟩ := ih p h
        refine ⟨q ++ " " ++ a, b, ?_⟩
        rw [joinSpace_cons₂, hab, ← String.append_assoc (q ++ " ") a (p ++ b)]

/-- One unfolding step of the instrumented loop. -/
lemma findPkgLoopTr_step (ex : Path → Bool) (n : Nat) (dir : Path) :
    findPkgLoopTr ex (n + 1) dir =
      if ex (dir ++ ["package.json"]) then
        (some (dir ++ ["package.json"]), [.existsCheck (dir ++ ["package.json"])])
      else if parentDir dir = parentDir (parentDir dir) then
        (none, [.existsCheck (dir ++ ["package.json"])])
      else
        ((findPkgLoopTr ex n (parentDir dir)).1,
          .existsCheck (dir ++ ["package.json"]) :: (findPkgLoopTr ex n (parentDir dir)).2) := rfl

/-- The instrumented loop returns the same result as the loop. -/
lemma findPkgLoopTr_fst (ex : Path → Bool) :
    ∀ (fuel : Nat) (dir : Path), (findPkgLoopTr ex fuel dir).1 = findPkgLoop ex fuel dir := by
  intro fuel
  induction fuel with
  | zero => intro dir; rfl
  | succ n ih =>
    intro dir
    rw [findPkgLoopTr_step, findPkgLoop_step]
    by_cases hx : ex (dir ++ ["package.json"]) = true
    · rw [if_pos hx, if_pos hx]
    · rw [if_neg hx, if_neg hx]
      by_cases hd : parentDir dir = parentDir (parentDir dir)
      · rw [if_pos hd, if_pos hd]
      · rw [if_neg hd, if_neg hd]
        exact ih (parentDir dir)

/-- Every effect of the search loop is a read. -/
lemma findPkgLoopTr_reads (ex : Path → Bool) :
    ∀ (fuel : Nat) (dir : Path), ∀ e ∈ (findPkgLoopTr ex fuel dir).2, e.isRead = true := by
  intro fuel
  induction fuel with
  | zero => intro dir e he; exact absurd he (List.not_mem_nil e)
  | succ n ih =>
    intro dir e he
    rw [findPkgLoopTr_step] at he
    by_cases hx : ex (dir ++ ["package.json"]) = true
    · rw [if_pos hx] at he
      rw [List.mem_singleton.mp he]
      rfl
    · rw [if_neg hx] at he
      by_cases hd : parentDir dir = parentDir (parentDir dir)
      · rw [if_pos hd] at he
        rw [List.mem_singleton.mp he]
        rfl
      · rw [if_neg hd] at he
        rcases List.mem_cons.mp he with h | h
        · rw [h]; rfl
        · exact ih (parentDir dir) e h

/-- A trace of reads leaves the filesystem unchanged. -/
lemma runTrace_reads (fsys : FileSystem) :
    ∀ (tr : List FsEffect), (∀ e ∈ tr, e.isRead = true) → runTrace fsys tr = fsys := by
  intro tr
  induction tr with
  | nil => intro _; rfl
  | cons e tr ih =>
    intro h
    have he : applyEffect fsys e = fsys := by
      cases e with
      | existsCheck p => rfl
      | readFile p => rfl
      | writeFile p c => exact Bool.noConfusion (h (.writeFile p c) (List.mem_cons_self _ _))
    show runTrace (applyEffect fsys e) tr = fsys
    rw [he]
    exact ih (fun e' he' => h e' (List.mem_cons_of_mem e he'))

/-- The trace of `check` is the search trace, possibly followed by the
single `readFileSync` of the found manifest. -/
lemma checkTr_trace (fsys : FileSystem) (cwd : Path) (ps : List String) (opt : Opt) :
    (checkTr fsys cwd ps opt).2 = (findPackageJsonTr fsys.ex cwd none).2 ∨
    ∃ p, (checkTr fsys cwd ps opt).2 =
      (findPackageJsonTr fsys.ex cwd none).2 ++ [.readFile p] := by
  simp only [checkTr]
  split
  · exact Or.inl rfl
  · split
    · exact Or.inr ⟨_, rfl⟩
    · split
      · exact Or.inr ⟨_, rfl⟩
      · split
        · exact Or.inr ⟨_, rfl⟩
        · exact Or.inr ⟨_, rfl⟩

/-- The instrumented `check` returns the same result as `check`. -/
lemma checkTr_fst (fsys : FileSystem) (cwd : Path) (ps : List String) (opt : Opt) :
    (checkTr fsys cwd ps opt).1 = check fsys cwd ps opt := by
  have hfind : (findPackageJsonTr fsys.ex cwd none).1 = findPackageJson fsys.ex cwd none :=
    findPkgLoopTr_fst fsys.ex _ _
  simp only [checkTr, check, hfind]
  repeat' split
  all_goals rfl

/-- C1 counterexample: in a filesystem whose only `package.json` is in the
filesystem root, a search started in the child directory `/a` returns
`null`, although the root is an ancestor of the start directory and holds
the file: the loop's exit test runs after stepping up, so the root is
never examined. -/
theorem findPackageJson_root_skipped_cex :
    exRootOnly (([] : Path) ++ ["package.json"]) = true ∧
    IsPref ([] : Path) (["a"] : Path) ∧
    findPackageJson exRootOnly [] (some ["a"]) = none :=
  ⟨by decide, ⟨["a"], rfl⟩, by decide⟩

/-- C1 (amended): whenever some searched directory — the start directory
or one of its non-root ancestors — holds a `package.json`,
`findPackageJson` returns the nearest one: the path through the deepest
such directory.  The root directory is searched only when it is itself
the start directory. -/
theorem findPackageJson_nearest (ex : Path → Bool) (cwd start : Path)
    (h : ∃ q, IsPref q start ∧ (q ≠ [] ∨ q = start) ∧ ex (q ++ ["package.json"]) = true) :
    ∃ p, IsPref p start ∧ (p ≠ [] ∨ p = start) ∧ ex (p ++ ["package.json"]) = true ∧
      findPackageJson ex cwd (some start) = some (p ++ ["package.json"]) ∧
      ∀ q, IsPref q start → (q ≠ [] ∨ q = start) → ex (q ++ ["package.json"]) = true →
        q.length ≤ p.length := by
  cases hr : findPackageJson ex cwd (some start) with
  | none =>
    obtain ⟨q, hq1, hq2, hq3⟩ := h
    have hfalse := findPkgLoop_none ex (start.length + 1) start (Nat.lt_succ_self _) hr q hq1 hq2
    rw [hfalse] at hq3
    exact Bool.noConfusion hq3
  | some r =>
    obtain ⟨p, hp1, hp2, hp3, hp4, hp5⟩ :=
      findPkgLoop_some ex (start.length + 1) start (Nat.lt_succ_self _) r hr
    exact ⟨p, hp2, hp3, hp4, by rw [hp1], hp5⟩

/-- Witness for C1: in `fsAB` (manifest at `/proj/package.json`), starting
from `/proj/sub`, the nearest manifest is found. -/
theorem findPackageJson_nearest_witness :
    ∃ p, IsPref p ["proj", "sub"] ∧ (p ≠ [] ∨ p = ["proj", "sub"]) ∧
      fsAB.ex (p ++ ["package.json"]) = true ∧
      findPackageJson fsAB.ex [] (some ["proj", "sub"]) = some (p ++ ["package.json"]) ∧
      ∀ q, IsPref q ["proj", "sub"] → (q ≠ [] ∨ q = ["proj", "sub"]) →
        fsAB.ex (q ++ ["package.json"]) = true → q.length ≤ p.length :=
  findPackageJson_nearest fsAB.ex [] ["proj", "sub"]
    ⟨["proj"], ⟨["sub"], rfl⟩, Or.inl (by decide), by decide⟩

/-- C2 counterexample: for a manifest with `devDependencies {"x":"1.0.0"}`
and no `dependencies` field, `checkDeps(["x"])` does not return
`{x: false}`: it throws the `TypeError` of `Object.keys(undefined)`.
(`checkDevDeps(["x"])` does return `{x: true}`.) -/
theorem checkDeps_missing_field_cex :
    checkDeps fsDevX [] ["x"] = .error .typeError ∧
    checkDeps fsDevX [] ["x"] ≠ .ok [("x", false)] ∧
    checkDevDeps fsDevX [] ["x"] = .ok [("x", true)] := by
  decide

/-- C2 (amended): when a selected field is absent from the found and
parsed manifest, `check` does not treat it as an empty key set: it throws
the `TypeError` of `Object.keys(undefined)` and produces no mapping. -/
theorem check_missing_field_typeError (fsys : FileSystem) (cwd : Path) (ps : List String)
    (p : Path) (m : Manifest)
    (hfind : findPackageJson fsys.ex cwd none = some p)
    (hparse : fsys.parseJson p = some m) :
    (m.dependencies = none → checkDeps fsys cwd ps = .error .typeError) ∧
    (m.devDependencies = none → checkDevDeps fsys cwd ps = .error .typeError) := by
  constructor
  · intro hnone
    simp [checkDeps, check, hfind, hparse, hnone, objectKeys]
  · intro hnone
    simp [checkDevDeps, check, hfind, hparse, hnone, objectKeys]

/-- Witness for C2: the amended behaviour on the concrete manifest of the
spec's example. -/
theorem check_missing_field_typeError_witness :
    checkDeps fsDevX [] ["x"] = .error .typeError :=
  (check_missing_field_typeError fsDevX [] ["x"] ["package.json"] mDevX
    (by decide) (by decide)).1 (by decide)

/-- C3: when no directory from the start (the current working directory)
up to and including the root holds a `package.json`, `findPackageJson`
returns `null` without an error, and `check` and both wrappers throw the
manifest-not-found error, producing no partial result. -/
theorem check_manifestNotFound (fsys : FileSystem) (cwd : Path)
    (h : ∀ q, IsPref q cwd → fsys.ex (q ++ ["package.json"]) = false) :
    findPackageJson fsys.ex cwd none = none ∧
    ∀ (ps : List String) (opt : Opt),
      check fsys cwd ps opt = .error .manifestNotFound ∧
      checkDeps fsys cwd ps = .error .manifestNotFound ∧
      checkDevDeps fsys cwd ps = .error .manifestNotFound := by
  have hnone : findPackageJson fsys.ex cwd none = none := by
    cases hr : findPackageJson fsys.ex cwd none with
    | none => rfl
    | some r =>
      obtain ⟨p, _, hp2, _, hp4, _⟩ :=
        findPkgLoop_some fsys.ex (cwd.length + 1) cwd (Nat.lt_succ_self _) r hr
      rw [h p hp2] at hp4
      exact Bool.noConfusion hp4
  refine ⟨hnone, ?_⟩
  intro ps opt
  have hc : ∀ o : Opt, check fsys cwd ps o = .error .manifestNotFound := by
    intro o
    simp only [check, hnone]
  exact ⟨hc opt, hc ⟨true, false⟩, hc ⟨false, true⟩⟩

/-- Witness for C3: the empty filesystem. -/
theorem check_manifestNotFound_witness :
    findPackageJson fsEmpty.ex ["a"] none = none ∧
    check fsEmpty ["a"] ["eslint"] ⟨true, false⟩ = .error .manifestNotFound :=
  ⟨(check_manifestNotFound fsEmpty ["a"] (fun _ _ => rfl)).1,
   ((check_manifestNotFound fsEmpty ["a"] (fun _ _ => rfl)).2 ["eslint"] ⟨true, false⟩).1⟩

/-- C4: when the manifest is found, parses, and has every selected field,
`check` returns a mapping whose keys are exactly the requested names
(each once), each mapped to `true` iff the name is — by exact string
equality — a key of the union of the selected fields. -/
theorem check_membership (fsys : FileSystem) (cwd : Path) (ps : List String) (opt : Opt)
    (p : Path) (m : Manifest)
    (hfind : findPackageJson fsys.ex cwd none = some p)
    (hparse : fsys.parseJson p = some m)
    (hdev : opt.devDependencies = true → m.devDependencies.isSome = true)
    (hdep : opt.dependencies = true → m.dependencies.isSome = true) :
    ∃ r, check fsys cwd ps opt = .ok r ∧
      (keysOf r).Nodup ∧
      (∀ kv ∈ r, kv.1 ∈ ps ∧ kv.2 = (selectedKeys opt m).contains kv.1) ∧
      (∀ k ∈ ps, (k, (selectedKeys opt m).contains k) ∈ r) := by
  have hdev' : (if opt.devDependencies then objectKeys m.devDependencies else .ok []) =
      .ok (if opt.devDependencies then (m.devDependencies.getD []).map Prod.fst else []) := by
    by_cases h : opt.devDependencies = true
    · rw [if_pos h, if_pos h]
      obtain ⟨kvs, hkvs⟩ := Option.isSome_iff_exists.mp (hdev h)
      rw [hkvs]
      rfl
    · rw [if_neg h, if_neg h]
  have hdep' : (if opt.dependencies then objectKeys m.dependencies else .ok []) =
      .ok (if opt.dependencies then (m.dependencies.getD []).map Prod.fst else []) := by
    by_cases h : opt.dependencies = true
    · rw [if_pos h, if_pos h]
      obtain ⟨kvs, hkvs⟩ := Option.isSome_iff_exists.mp (hdep h)
      rw [hkvs]
      rfl
    · rw [if_neg h, if_neg h]
  have hok : check fsys cwd ps opt =
      .ok (ps.foldl (fun status pkg =>
        setKey status pkg ((selectedKeys opt m).contains pkg)) []) := by
    simp only [check, hfind, hparse, hdev', hdep', selectedKeys, List.nil_append]
  obtain ⟨g1, g2, g3⟩ := reduce_status_spec (fun k => (selectedKeys opt m).contains k) ps
  exact ⟨_, hok, g1, g2, g3⟩

/-- Witness for C4: the spec's example, `dependencies {"a", "b"}` and the
query `["a", "c"]`. -/
theorem check_membership_witness :
    ∃ r, check fsAB ["proj"] ["a", "c"] ⟨true, false⟩ = .ok r ∧
      (keysOf r).Nodup ∧
      (∀ kv ∈ r, kv.1 ∈ ["a", "c"] ∧ kv.2 = (selectedKeys ⟨true, false⟩ mAB).contains kv.1) ∧
      (∀ k ∈ ["a", "c"], (k, (selectedKeys ⟨true, false⟩ mAB).contains k) ∈ r) :=
  check_membership fsAB ["proj"] ["a", "c"] ⟨true, false⟩ ["proj", "package.json"] mAB
    (by decide) (by decide) (by decide) (by decide)

/-- C5 counterexample: `checkDeps([])` is not `{}` regardless of the
manifest's contents — for a manifest without a `dependencies` field it
throws the `TypeError` of `Object.keys(undefined)` before ever looking at
the empty package list. -/
theorem checkDeps_empty_cex :
    checkDeps fsDevX [] [] = .error .typeError ∧
    checkDeps fsDevX [] [] ≠ .ok [] := by
  decide

/-- C5 (amended): for every manifest that is found, parses, and has a
`dependencies` field, `checkDeps([])` returns the empty mapping,
whatever else the manifest contains. -/
theorem checkDeps_empty_ok (fsys : FileSystem) (cwd : Path) (p : Path) (m : Manifest)
    (kvs : List (String × String))
    (hfind : findPackageJson fsys.ex cwd none = some p)
    (hparse : fsys.parseJson p = some m)
    (hdep : m.dependencies = some kvs) :
    checkDeps fsys cwd [] = .ok [] := by
  simp [checkDeps, check, hfind, hparse, hdep, objectKeys]

/-- Witness for C5. -/
theorem checkDeps_empty_ok_witness : checkDeps fsAB ["proj"] [] = .ok [] :=
  checkDeps_empty_ok fsAB ["proj"] ["proj", "package.json"] mAB
    [("a", "1.0.0"), ("b", "2.0.0")] (by decide) (by decide) (by decide)

/-- C6: `installSyncSaveDev` joins an array of names with single spaces
and issues exactly one install command containing every name; a single
string behaves exactly like the one-element array. -/
theorem installSyncSaveDev_single_command (ps : List String) (s : String) :
    installSyncSaveDev (.arr ps) = ["npm i --save-dev " ++ joinSpace ps] ∧
    (installSyncSaveDev (.arr ps)).length = 1 ∧
    (∀ p ∈ ps, ∃ a b, "npm i --save-dev " ++ joinSpace ps = a ++ (p ++ b)) ∧
    installSyncSaveDev (.str s) = installSyncSaveDev (.arr [s]) := by
  refine ⟨rfl, rfl, ?_, rfl⟩
  intro p hp
  obtain ⟨a, b, hab⟩ := joinSpace_contains ps p hp
  exact ⟨"npm i --save-dev " ++ a, b,
    by rw [hab, ← String.append_assoc "npm i --save-dev " a (p ++ b)]⟩

/-- Witness for C6: `["foo", "bar"]` and `"foo"`. -/
theorem installSyncSaveDev_single_command_witness :
    installSyncSaveDev (.arr ["foo", "bar"]) = ["npm i --save-dev " ++ joinSpace ["foo", "bar"]] ∧
    (∃ a b, "npm i --save-dev " ++ joinSpace ["foo", "bar"] = a ++ ("foo" ++ b)) ∧
    installSyncSaveDev (.str "foo") = installSyncSaveDev (.arr ["foo"]) :=
  ⟨(installSyncSaveDev_single_command ["foo", "bar"] "foo").1,
   (installSyncSaveDev_single_command ["foo", "bar"] "foo").2.2.1 "foo" (by decide),
   (installSyncSaveDev_single_command ["foo", "bar"] "foo").2.2.2⟩

/-- C7: with both options false, `check` does not fail on a found and
parsed manifest: it maps every requested package to `false`. -/
theorem check_both_false (fsys : FileSystem) (cwd : Path) (ps : List String)
    (p : Path) (m : Manifest)
    (hfind : findPackageJson fsys.ex cwd none = some p)
    (hparse : fsys.parseJson p = some m) :
    ∃ r, check fsys cwd ps ⟨false, false⟩ = .ok r ∧
      (keysOf r).Nodup ∧
      (∀ kv ∈ r, kv.1 ∈ ps ∧ kv.2 = false) ∧
      (∀ k ∈ ps, (k, false) ∈ r) := by
  have hok : check fsys cwd ps ⟨false, false⟩ =
      .ok (ps.foldl (fun status pkg =>
        setKey status pkg ((fun _ => false) pkg)) []) := by
    simp only [check, hfind, hparse]
    rfl
  obtain ⟨g1, g2, g3⟩ := reduce_status_spec (fun _ => false) ps
  exact ⟨_, hok, g1, g2, g3⟩

/-- Witness for C7. -/
theorem check_both_false_witness :
    ∃ r, check fsAB ["proj"] ["a", "c"] ⟨false, false⟩ = .ok r ∧
      (keysOf r).Nodup ∧
      (∀ kv ∈ r, kv.1 ∈ ["a", "c"] ∧ kv.2 = false) ∧
      (∀ k ∈ ["a", "c"], (k, false) ∈ r) :=
  check_both_false fsAB ["proj"] ["a", "c"] ["proj", "package.json"] mAB
    (by decide) (by decide)

/-- C8: `check` starts the manifest search at the current working
directory — `findPackageJson` is invoked with no argument — so its result
depends only on the filesystem along the ancestor chain of the current
working directory: two filesystems that agree there give identical
results, whatever they hold elsewhere. -/
theorem check_depends_only_on_cwd_chain (fs1 fs2 : FileSystem) (cwd : Path)
    (ps : List String) (opt : Opt)
    (hex : ∀ q, IsPref q cwd →
      fs1.ex (q ++ ["package.json"]) = fs2.ex (q ++ ["package.json"]))
    (hparse : ∀ q, IsPref q cwd →
      fs1.parseJson (q ++ ["package.json"]) = fs2.parseJson (q ++ ["package.json"])) :
    findPackageJson fs1.ex cwd none = findPackageJson fs2.ex cwd none ∧
    check fs1 cwd ps opt = check fs2 cwd ps opt := by
  have hfind : findPackageJson fs1.ex cwd none = findPackageJson fs2.ex cwd none :=
    findPkgLoop_congr fs1.ex fs2.ex (cwd.length + 1) cwd hex
  refine ⟨hfind, ?_⟩
  cases hr : findPackageJson fs2.ex cwd none with
  | none =>
    have hr1 : findPackageJson fs1.ex cwd none = none := hfind.trans hr
    simp only [check, hr, hr1]
  | some p =>
    have hr1 : findPackageJson fs1.ex cwd none = some p := hfind.trans hr
    obtain ⟨q, hpq, hqpref, _, _, _⟩ :=
      findPkgLoop_some fs2.ex (cwd.length + 1) cwd (Nat.lt_succ_self _) p hr
    have hps : fs1.parseJson p = fs2.parseJson p := by
      rw [hpq]
      exact hparse q hqpref
    simp only [check, hr, hr1, hps]

/-- Witness for C8: `fsAB` and `fsAB'` differ at `/other/package.json`,
which is outside the ancestor chain of `/proj`; `check` cannot tell them
apart. -/
theorem check_depends_only_on_cwd_chain_witness :
    findPackageJson fsAB.ex ["proj"] none = findPackageJson fsAB'.ex ["proj"] none ∧
    check fsAB ["proj"] ["a", "c"] ⟨true, false⟩ = check fsAB' ["proj"] ["a", "c"] ⟨true, false⟩ :=
  check_depends_only_on_cwd_chain fsAB fsAB' ["proj"] ["a", "c"] ⟨true, false⟩
    (fun _ _ => rfl)
    (fun q hq => by
      rcases hq with ⟨t, ht⟩
      cases q with
      | nil => rfl
      | cons x xs =>
        cases xs with
        | nil =>
          cases ht
          rfl
        | cons y ys =>
          exact absurd (congrArg List.length ht) (by
            intro hlen
            simp only [List.length_append, List.length_cons, List.length_nil] at hlen
            omega))

/-- C9: the command issued for an array is literally the command issued
for the single string obtained by space-joining it, so a name containing
a space is indistinguishable at the subprocess boundary from two separate
names: `["a b"]` and `["a", "b"]` produce the same invocation. -/
theorem installSyncSaveDev_join_indistinguishable (ps : List String) :
    installSyncSaveDev (.arr ps) = installSyncSaveDev (.str (joinSpace ps)) ∧
    installSyncSaveDev (.arr ["a b"]) = installSyncSaveDev (.arr ["a", "b"]) :=
  ⟨rfl, by decide⟩

/-- C10: the query operations only read the filesystem: every effect in
the traces of `findPackageJson` and `check` (under any options, hence
also under those of the two wrappers) is a read, the filesystem after
running the trace is unchanged — whether the call returns a result or an
error — and the instrumented operations return exactly what the plain
ones do. -/
theorem queries_readonly (fsys : FileSystem) (cwd : Path) (ps : List String) (opt : Opt) :
    (∀ e ∈ (findPackageJsonTr fsys.ex cwd none).2, e.isRead = true) ∧
    runTrace fsys (findPackageJsonTr fsys.ex cwd none).2 = fsys ∧
    (findPackageJsonTr fsys.ex cwd none).1 = findPackageJson fsys.ex cwd none ∧
    (∀ e ∈ (checkTr fsys cwd ps opt).2, e.isRead = true) ∧
    runTrace fsys (checkTr fsys cwd ps opt).2 = fsys ∧
    (checkTr fsys cwd ps opt).1 = check fsys cwd ps opt := by
  have hfreads : ∀ e ∈ (findPackageJsonTr fsys.ex cwd none).2, e.isRead = true :=
    findPkgLoopTr_reads fsys.ex (cwd.length + 1) cwd
  have hcreads : ∀ e ∈ (checkTr fsys cwd ps opt).2, e.isRead = true := by
    intro e he
    rcases checkTr_trace fsys cwd ps opt with h | ⟨p, h⟩
    · rw [h] at he
      exact hfreads e he
    · rw [h] at he
      rcases List.mem_append.mp he with h' | h'
      · exact hfreads e h'
      · rw [List.mem_singleton.mp h']
        rfl
  exact ⟨hfreads, runTrace_reads fsys _ hfreads,
    findPkgLoopTr_fst fsys.ex (cwd.length + 1) cwd,
    hcreads, runTrace_reads fsys _ hcreads,
    checkTr_fst fsys cwd ps opt⟩

/-- Witness for C10: on a concrete filesystem and query, the trace leaves
the filesystem unchanged and the instrumented result agrees, even though
the call ends in the `TypeError` of a missing selected field. -/
theorem queries_readonly_witness :
    runTrace fsDevX (checkTr fsDevX [] ["x"] ⟨true, false⟩).2 = fsDevX ∧
    (checkTr fsDevX [] ["x"] ⟨true, false⟩).1 = check fsDevX [] ["x"] ⟨true, false⟩ ∧
    runTrace fsDevX (findPackageJsonTr fsDevX.ex [] none).2 = fsDevX :=
  ⟨(queries_readonly fsDevX [] ["x"] ⟨true, false⟩).2.2.2.2.1,
   (queries_readonly fsDevX [] ["x"] ⟨true, false⟩).2.2.2.2.2,
   (queries_readonly fsDevX [] ["x"] ⟨true, false⟩).2.1⟩

end NpmUtil
